import Mathlib

/-!
Verification of the temporal-geographic linkage engine of `linkdata`.

The development shallowly embeds the core of the repository:
* area-code normalization (`str(x).zfill(11)`, used in
  `ResidentialHistoryHRS._parse_move_info`, `HRSInterviewData.__init__`,
  `HeatIndexData.format_cols`);
* the residential move-history parser and point-in-time GEOID lookup
  (`linkdata/hrs.py`);
* the lag-column generator, GEOID-domain extraction, filtered contextual
  load, the batch/sequential/parallel lag-merge orchestrators
  (`linkdata/process.py`, `linkdata/hrs.py`) and the final assembly of
  per-lag tables (`link_lags.py, run_pipeline`).

Dates are modelled as integers (day numbers); timestamps produced from
year/month pairs with day 1 are mapped through the order embedding
`ymDate`.  Nullable values (pandas NA) are `Option`; dataframes are lists
of structured records in row order.
-/

namespace LinkData

/-! ## Area-code normalization -/

/-- Python `str.zfill width`: left-pad with `'0'` up to `width` characters,
keeping a leading `'-'`/`'+'` in front of the padding; a string that already
has at least `width` characters is returned unchanged (never truncated). -/
def pyZfill (s : String) (width : Nat) : String :=
  if width ≤ s.length then s
  else
    match s.data with
    | [] => String.mk (List.replicate width '0')
    | c :: cs =>
      if c = '-' ∨ c = '+' then
        String.mk (c :: (List.replicate (width - s.length) '0' ++ cs))
      else
        String.mk (List.replicate (width - s.length) '0' ++ c :: cs)

/-- The area-code normalization applied at every ingestion point of the
pipeline: `str(x).zfill(11)` (on a string input, `str` is the identity). -/
def normalizeGeoid (s : String) : String := pyZfill s 11

theorem string_length_mk (l : List Char) : (String.mk l).length = l.length := rfl

theorem string_length_data (s : String) : s.length = s.data.length := rfl

theorem pyZfill_length (s : String) (w : Nat) : (pyZfill s w).length = max s.length w := by
  rw [pyZfill]
  by_cases h : w ≤ s.length
  · rw [if_pos h]
    omega
  · rw [if_neg h]
    rcases hd : s.data with _ | ⟨c, cs⟩
    · have hs : s.length = 0 := by rw [string_length_data, hd]; rfl
      simp [string_length_mk, hs]
    · have hs : s.length = cs.length + 1 := by
        rw [string_length_data, hd]; simp
      dsimp only
      by_cases hc : c = '-' ∨ c = '+'
      · rw [if_pos hc]
        simp only [string_length_mk, List.length_cons, List.length_append,
          List.length_replicate]
        omega
      · rw [if_neg hc]
        simp only [string_length_mk, List.length_append, List.length_replicate,
          List.length_cons]
        omega

theorem pyZfill_of_wide (s : String) (w : Nat) (h : w ≤ s.length) : pyZfill s w = s := by
  rw [pyZfill, if_pos h]

/-- Claim C9: the area-code normalization (string conversion followed by
zero-padding to width 11) is idempotent: `normalize (normalize x) = normalize x`
for every input string. -/
theorem normalizeGeoid_idempotent (s : String) :
    normalizeGeoid (normalizeGeoid s) = normalizeGeoid s := by
  have h : 11 ≤ (normalizeGeoid s).length := by
    rw [normalizeGeoid, pyZfill_length]; omega
  rw [normalizeGeoid, pyZfill_of_wide _ _ h]

/-- Claim C8, counterexample: a raw area code with more than 11 characters is
not normalized to exactly 11 characters — `zfill` pads but never truncates. -/
theorem normalizeGeoid_not_always_length_11 :
    (normalizeGeoid "123456789012").length = 12 ∧
      ¬ (normalizeGeoid "123456789012").length = 11 := by
  constructor
  · rfl
  · decide

/-- Claim C8 (amended): every stored or emitted area code has length
`max (raw length) 11`: raw values of at most 11 characters are left-padded
with zeros to exactly 11 characters, while longer raw values pass through
unchanged (so the fixed-width guarantee holds only for raw values that fit). -/
theorem normalizeGeoid_length (s : String) :
    (normalizeGeoid s).length = max s.length 11 :=
  pyZfill_length s 11

/-! ## Residential move-history parsing (`ResidentialHistoryHRS._parse_move_info`) -/

/-- Per-respondent move-history index entry: the two aligned lists stored in
`_move_info[pid] = (dates, geoids)`. -/
structure MoveInfo where
  dates : List Int
  geoids : List String
deriving Repr, DecidableEq

/-- One raw move record of one respondent, as consumed by `_parse_move_info`.
`isFirstTract` is `movecol == first_tract_mark` (numeric or string form),
`isMoved` is `movecol == moved_mark`. -/
structure MoveRow where
  isFirstTract : Bool
  isMoved : Bool
  mvyear : Option Int
  mvmonth : Option Int
  surveyYear : Int
  geoidRaw : String
deriving Repr, DecidableEq

/-- Month-resolution effective date: order-isomorphic image of the timestamp
`"{y}-{m}-01"` built by `_parse_move_info` (the day component is always 1). -/
def ymDate (y m : Int) : Int := 12 * y + (m - 1)

/-- Start date of the first-residence row (`_parse_move_info` lines 73-82):
explicit move year (missing month defaults to January), else survey year
with January. -/
def startDateOf (first : MoveRow) : Int :=
  match first.mvyear with
  | some y => ymDate y (first.mvmonth.getD 1)
  | none => ymDate first.surveyYear 1

/-- Effective date of a move-event row (`_parse_move_info` lines 88-91).
The source computes `int(row[mvyear])`/`int(row[mvmonth])`, which raises on
missing values; well-formed inputs have both present, so the `getD`
defaults never fire on them. -/
def moveDateOf (r : MoveRow) : Int := ymDate (r.mvyear.getD 0) (r.mvmonth.getD 1)

/-- `_parse_move_info`, body for one respondent's rows: locate the first row
marked as first tract (`first_rows.iloc[0]`; respondent skipped when absent),
then append the move-event rows in their input order.  No sort is applied. -/
def parsePersonMoveInfo (rows : List MoveRow) : Option MoveInfo :=
  match rows.find? (fun r => r.isFirstTract) with
  | none => none
  | some first =>
    let moved := rows.filter (fun r => r.isMoved)
    some { dates := startDateOf first :: moved.map moveDateOf,
           geoids := normalizeGeoid first.geoidRaw ::
             moved.map (fun r => normalizeGeoid r.geoidRaw) }

def exFirstRow : MoveRow :=
  { isFirstTract := true, isMoved := false, mvyear := some 2010,
    mvmonth := some 1, surveyYear := 2010, geoidRaw := "00000000001" }

def exMoveLate : MoveRow :=
  { isFirstTract := false, isMoved := true, mvyear := some 2015,
    mvmonth := some 6, surveyYear := 2010, geoidRaw := "00000000002" }

def exMoveEarly : MoveRow :=
  { isFirstTract := false, isMoved := true, mvyear := some 2012,
    mvmonth := some 3, surveyYear := 2010, geoidRaw := "00000000003" }

/-- Claim C2, counterexample: when the raw move records arrive in
non-chronological order (a 2015 move listed before a 2012 move), the built
index keeps them in input order, so its effective dates are not sorted and
not strictly increasing. -/
theorem parse_move_info_does_not_sort :
    parsePersonMoveInfo [exFirstRow, exMoveLate, exMoveEarly] =
      some { dates := [ymDate 2010 1, ymDate 2015 6, ymDate 2012 3],
             geoids := ["00000000001", "00000000002", "00000000003"] } ∧
      ¬ List.Pairwise (· < ·) [ymDate 2010 1, ymDate 2015 6, ymDate 2012 3] := by
  constructor
  · rfl
  · decide

/-- Claim C2 (amended): the stored entry keeps the input order — the
first-residence date followed by the move-event dates in record order; no
sorting is applied before lookups, so the effective dates are strictly
increasing exactly when the input is already chronological (first residence
earliest, move events mutually increasing). -/
theorem parse_move_info_order (rows : List MoveRow) (first : MoveRow) (mi : MoveInfo)
    (hf : rows.find? (fun r => r.isFirstTract) = some first)
    (hp : parsePersonMoveInfo rows = some mi)
    (hchron : List.Pairwise (· < ·)
      (startDateOf first :: (rows.filter (fun r => r.isMoved)).map moveDateOf)) :
    mi.dates = startDateOf first :: (rows.filter (fun r => r.isMoved)).map moveDateOf ∧
      List.Pairwise (· < ·) mi.dates := by
  have h2 := congrArg (Option.map MoveInfo.dates) hp
  rw [parsePersonMoveInfo, hf] at h2
  simp only [Option.map_some', Option.some.injEq] at h2
  have hmi : mi.dates = startDateOf first ::
      (rows.filter (fun r => r.isMoved)).map moveDateOf := h2.symm
  refine ⟨hmi, ?_⟩
  rw [hmi]
  exact hchron

/-- Claim C2 amended-theorem witness: a chronological input is parsed into a
strictly increasing index. -/
theorem parse_move_info_order_witness :
    (parsePersonMoveInfo [exFirstRow, exMoveEarly, exMoveLate]).map MoveInfo.dates =
      some [ymDate 2010 1, ymDate 2012 3, ymDate 2015 6] ∧
      List.Pairwise (· < ·) [ymDate 2010 1, ymDate 2012 3, ymDate 2015 6] := by
  have h := parse_move_info_order [exFirstRow, exMoveEarly, exMoveLate] exFirstRow
    { dates := [ymDate 2010 1, ymDate 2012 3, ymDate 2015 6],
      geoids := ["00000000001", "00000000003", "00000000002"] }
    (by decide) (by rfl) (by decide)
  exact ⟨by rfl, h.2⟩

/-! ## Point-in-time GEOID lookup (`_find_geoid_for_date`, `create_geoid_based_on_date`) -/

/-- The scan loop of `_find_geoid_for_date` (hrs.py lines 146-150).  The source
returns `move_geoids[i-1]` at the first `move_dt > dt` and `move_geoids[-1]`
when no later move exists; here `cur` carries the geoid of the entry before
the one under examination, which is exactly `move_geoids[i-1]` (the guard
`dt < move_dates[0]` has already ruled out a hit at index 0). -/
def findGeoidGo (dt : Int) (cur : String) : List Int → List String → Option String
  | [], _ => some cur
  | d :: ds, g :: gs => if dt < d then some cur else findGeoidGo dt g ds gs
  | _ :: _, [] => none

/-- `ResidentialHistoryHRS._find_geoid_for_date` (hrs.py lines 135-150):
`None` when `dt` precedes the first recorded move, `move_geoids[0]` for a
single entry, otherwise the scan above.  Empty/ragged inputs (which raise in
the source) yield `none`. -/
def find_geoid_for_date (dt : Int) (moveDates : List Int) (moveGeoids : List String) :
    Option String :=
  match moveDates, moveGeoids with
  | d0 :: ds, g0 :: gs => if dt < d0 then none else findGeoidGo dt g0 ds gs
  | _, _ => none

/-- Per-element body of `create_geoid_based_on_date` (hrs.py lines 207-218):
`None` for a missing person id, `None` for an id absent from `_move_info`,
else `_find_geoid_for_date` on that person's entry. -/
def lookupRespondent (index : List (Int × MoveInfo)) (pid : Option Int) (dt : Int) :
    Option String :=
  match pid with
  | none => none
  | some p =>
    match index.lookup p with
    | none => none
    | some mi => find_geoid_for_date dt mi.dates mi.geoids

/-- Written from the spec's words, for comparison with the source lookup:
"return the area code associated with the latest effective date ≤ the query
date", unknown when no entry qualifies. -/
def lookupSpecLatest (dt : Int) (entries : List (Int × String)) : Option String :=
  ((entries.filter (fun e => decide (e.1 ≤ dt))).getLast?).map Prod.snd

theorem getLast?_cons_of_ne_nil {α : Type} (a : α) (l : List α) (h : l ≠ []) :
    (a :: l).getLast? = l.getLast? := by
  cases l with
  | nil => exact absurd rfl h
  | cons b bs => exact List.getLast?_cons_cons

theorem findGeoidGo_eq_spec (dt d0 : Int) (g0 : String) (ds : List Int) (gs : List String)
    (hlen : ds.length = gs.length)
    (hchain : List.Pairwise (· < ·) (d0 :: ds)) (hle : d0 ≤ dt) :
    findGeoidGo dt g0 ds gs = lookupSpecLatest dt ((d0, g0) :: ds.zip gs) := by
  induction ds generalizing d0 g0 gs with
  | nil =>
    have hgs : gs = [] := List.length_eq_zero.mp hlen.symm
    subst hgs
    simp [findGeoidGo, lookupSpecLatest, hle]
  | cons d ds ih =>
    cases gs with
    | nil => simp at hlen
    | cons g gs =>
      have hlen' : ds.length = gs.length := by simpa using hlen
      have hd0d : d0 < d := (List.pairwise_cons.mp hchain).1 d (by simp)
      have hchain' : List.Pairwise (· < ·) (d :: ds) :=
        (List.pairwise_cons.mp hchain).2
      by_cases hlt : dt < d
      · -- all entries from (d, g) on are beyond dt
        have hafter : ∀ e ∈ (d, g) :: ds.zip gs, ¬ e.1 ≤ dt := by
          intro e he
          rcases List.mem_cons.mp he with he | he
          · subst he; omega
          · have : d < e.1 := by
              have hd := (List.pairwise_cons.mp hchain').1
              have : e.1 ∈ ds := by
                have := List.of_mem_zip he
                exact this.1
              exact hd e.1 this
            omega
        have hfilter : ((d, g) :: ds.zip gs).filter (fun e => decide (e.1 ≤ dt)) = [] := by
          apply List.filter_eq_nil_iff.mpr
          intro e he
          simpa using hafter e he
        rw [findGeoidGo, if_pos hlt, lookupSpecLatest, List.zip_cons_cons]
        rw [List.filter_cons_of_pos (by simpa using hle), hfilter]
        rfl
      · have hdle : d ≤ dt := by omega
        rw [findGeoidGo, if_neg hlt]
        rw [ih d g gs hlen' hchain' hdle]
        have hne : ((d, g) :: ds.zip gs).filter (fun e => decide (e.1 ≤ dt)) ≠ [] := by
          rw [List.filter_cons_of_pos (by simpa using hdle)]
          simp
        have hsplit : ((d0, g0) :: (d :: ds).zip (g :: gs)).filter
            (fun e => decide (e.1 ≤ dt)) =
            (d0, g0) :: ((d, g) :: ds.zip gs).filter (fun e => decide (e.1 ≤ dt)) := by
          rw [List.zip_cons_cons, List.filter_cons_of_pos (by simpa using hle)]
        rw [lookupSpecLatest, lookupSpecLatest, hsplit,
          getLast?_cons_of_ne_nil _ _ hne]

/-- Claim C1: for every respondent and query date, the point-in-time lookup
returns unknown when the respondent has no move-history index entry (or the
id itself is missing); otherwise, assuming the respondent's effective dates
are strictly increasing (and aligned with the geoid list), the result equals
the spec's "area code of the entry with the latest effective date ≤ the query
date" — in particular it is unknown for dates before the first effective
date, and a query date equal to an effective date is governed by that entry. -/
theorem lookup_matches_spec (index : List (Int × MoveInfo)) (pid : Int) (dt : Int) :
    (index.lookup pid = none → lookupRespondent index (some pid) dt = none) ∧
    (∀ mi, index.lookup pid = some mi →
      List.Pairwise (· < ·) mi.dates → mi.dates.length = mi.geoids.length →
      lookupRespondent index (some pid) dt = lookupSpecLatest dt (mi.dates.zip mi.geoids)) ∧
    lookupRespondent index none dt = none := by
  refine ⟨?_, ?_, rfl⟩
  · intro h
    rw [lookupRespondent, h]
  · intro mi hmi hpw hlen
    have hstep : lookupRespondent index (some pid) dt =
        find_geoid_for_date dt mi.dates mi.geoids := by
      simp only [lookupRespondent, hmi]
    rw [hstep]
    rcases hd : mi.dates with _ | ⟨d0, ds⟩
    · have hg0 : mi.geoids = [] := by
        rw [hd] at hlen
        exact List.eq_nil_of_length_eq_zero (by simpa using hlen.symm)
      rw [hg0, lookupSpecLatest]
      simp [find_geoid_for_date]
    · rw [hd] at hlen hpw
      rcases hg : mi.geoids with _ | ⟨g0, gs⟩
      · rw [hg] at hlen; simp at hlen
      · rw [hg] at hlen
        simp only [find_geoid_for_date]
        by_cases hlt : dt < d0
        · rw [if_pos hlt]
          have hfilter : (((d0, g0) :: ds.zip gs).filter (fun e => decide (e.1 ≤ dt))) = [] := by
            apply List.filter_eq_nil_iff.mpr
            intro e he
            rcases List.mem_cons.mp he with he | he
            · subst he; simp; omega
            · have h1 : e.1 ∈ ds := (List.of_mem_zip he).1
              have h2 : d0 < e.1 := (List.pairwise_cons.mp hpw).1 e.1 h1
              simp
              omega
          rw [List.zip_cons_cons, lookupSpecLatest, hfilter]
          rfl
        · rw [if_neg hlt]
          rw [List.zip_cons_cons]
          exact findGeoidGo_eq_spec dt d0 g0 ds gs (by simpa using hlen) hpw (by omega)

def exIndex : List (Int × MoveInfo) :=
  [(7, { dates := [10, 20], geoids := ["00000000001", "00000000002"] })]

/-- Claim C1 witness: concrete two-entry history, queried between the two
effective dates — the source lookup and the spec lookup agree. -/
theorem lookup_matches_spec_witness :
    lookupRespondent exIndex (some 7) 15 =
      lookupSpecLatest 15 ([(10 : Int), 20].zip ["00000000001", "00000000002"]) :=
  (lookup_matches_spec exIndex 7 15).2.1
    { dates := [10, 20], geoids := ["00000000001", "00000000002"] }
    (by rfl) (by decide) (by rfl)

/-! ## Lag columns, GEOID domain and the filtered contextual store -/

/-- One row of the base respondent table: nullable integer id (`hhidpn`,
normalized to nullable `Int64`) and the reference date (`datecol`). -/
structure RespRow where
  id : Option Int
  refDate : Int
deriving Repr, DecidableEq

/-- The lag-`n` columns of one respondent row of the wide precomputed table:
id, the `n`-day-prior date, and the resolved GEOID (NA when unresolvable). -/
structure LagCols where
  id : Option Int
  lagDate : Int
  geoid : Option String
deriving Repr, DecidableEq

/-- The lag-`n` portion of the wide table built by `prepare_lag_columns_batch`
(hrs.py lines 344-362): the `{datecol}_{n}day_prior` date column is
`refDate − n` days, vectorized over all rows, and the matching GEOID column
is `create_geoid_based_on_date` applied to it (dynamic residential-history
mode). -/
def lagColsFor (index : List (Int × MoveInfo)) (resp : List RespRow) (n : Nat) :
    List LagCols :=
  resp.map (fun r =>
    { id := r.id, lagDate := r.refDate - (n : Int),
      geoid := lookupRespondent index r.id (r.refDate - (n : Int)) })

/-- One record of a year-partitioned contextual daily-measure table:
date, area code and the (renamed) measurement column. -/
structure ContextRecord where
  date : Int
  geoid : String
  value : Int
deriving Repr, DecidableEq

/-- `range a (b+1)` over integers. -/
def intRange (a b : Int) : List Int :=
  (List.range (b + 1 - a).toNat).map (fun (i : Nat) => a + (i : Int))

/-- `compute_required_years` (process.py lines 8-50): the calendar years
from `year (min date − max_lag_days)` through `year (max date)`.  The
calendar-year function is a parameter of the model (any monotone map from
day numbers to years). -/
def compute_required_years (year : Int → Int) (dates : List Int) (maxLagDays : Nat) :
    List Int :=
  match dates.min?, dates.max? with
  | some lo, some hi => intRange (year (lo - (maxLagDays : Int))) (year hi)
  | _, _ => []

/-- `extract_unique_geoids` (process.py lines 53-92): the union of the
non-NA values of every lag GEOID column of the wide table (the source keys
the columns by the GEOID name marker; in this row model those are exactly
the per-lag GEOID columns).  The source builds a set; here a list whose
membership is the set. -/
def extract_unique_geoids (index : List (Int × MoveInfo)) (resp : List RespRow)
    (ns : List Nat) : List String :=
  (ns.map (fun n => (lagColsFor index resp n).filterMap (fun lc => lc.geoid))).flatten

/-- Modelled from the spec: the filtered contextual load
(`DailyMeasureDataDir.preload_years` under a `geoid_filter`) — "The Store is
instructed to load only those years and, while loading, to retain only
records whose area code is in the required set."  `process.py` and the test
suite drive the store through `geoid_filter`/`preload_years`, which are
absent from the store sources; `store` maps a year to that year's records
and loading concatenates the requested years in order. -/
def loadFilteredYears (store : Int → List ContextRecord) (years : List Int)
    (gs : List String) : List ContextRecord :=
  (years.map (fun y => (store y).filter (fun r => decide (r.geoid ∈ gs)))).flatten

/-- The years actually loaded (process.py lines 159-166): the required range
restricted to the years available in the store directory. -/
def yearsToLoad (year : Int → Int) (resp : List RespRow) (maxLag : Nat)
    (avail : List Int) : List Int :=
  (compute_required_years year (resp.map (fun r => r.refDate)) maxLag).filter
    (fun y => decide (y ∈ avail))

/-- `max(n_days)` (for the nonempty lag lists the callers pass). -/
def maxLagOf (ns : List Nat) : Nat := ns.foldl max 0

/-! ## Per-lag merge (`output_merged_columns`) -/

/-- One row of a per-lag output table: id, the lag date and GEOID (present in
the frame, emitted only when `include_lag_date`), and the merged measurement
value (absent in the all-NA early return). -/
structure MergedRow where
  id : Option Int
  lagDate : Int
  geoid : Option String
  value : Option Int
deriving Repr, DecidableEq

/-- A per-lag output frame together with which columns it carries:
always the id column; the lag date and GEOID columns when `includeLagDate`;
the renamed measurement column unless the all-NA early return fired. -/
structure OutDf where
  includeLagDate : Bool
  hasValueCol : Bool
  rows : List MergedRow
deriving Repr, DecidableEq

/-- `out_df.shape[1]`: number of emitted columns. -/
def OutDf.numCols (d : OutDf) : Nat :=
  1 + (if d.includeLagDate then 2 else 0) + (if d.hasValueCol then 1 else 0)

/-- The contextual records matching one lag row's `(lag date, lag GEOID)` merge
key; an NA GEOID matches nothing (contextual GEOIDs are never NA). -/
def ctxMatches (ctx : List ContextRecord) (lc : LagCols) : List ContextRecord :=
  ctx.filter (fun c => decide (c.date = lc.lagDate ∧ lc.geoid = some c.geoid))

/-- `HRSContextLinker.output_merged_columns` (hrs.py lines 471-562): if every
lag GEOID is NA, return the selected columns unmerged (no measurement
column); otherwise left-merge the lag columns with the pre-loaded contextual
frame on `(lag date, lag GEOID)` — each unmatched row is kept once with a
null measurement, each matched row is repeated per match — and rename the
measurement column to encode the lag. -/
def output_merged_columns (lagTable : List LagCols) (ctx : List ContextRecord)
    (includeLagDate : Bool) : OutDf :=
  if lagTable.all (fun lc => lc.geoid.isNone) then
    { includeLagDate := includeLagDate, hasValueCol := false,
      rows := lagTable.map (fun lc =>
        { id := lc.id, lagDate := lc.lagDate, geoid := lc.geoid, value := none }) }
  else
    { includeLagDate := includeLagDate, hasValueCol := true,
      rows := lagTable.flatMap (fun lc =>
        match ctxMatches ctx lc with
        | [] => [{ id := lc.id, lagDate := lc.lagDate, geoid := lc.geoid, value := none }]
        | ms => ms.map (fun c =>
            { id := lc.id, lagDate := lc.lagDate, geoid := lc.geoid, value := some c.value })) }

/-! ## The three execution strategies (process.py) -/

/-- The shared step-4 loop body of `process_multiple_lags_batch`
(process.py lines 175-207) and of `process_single_lag` given precomputed
inputs (lines 387-449): merge one lag against the loaded contextual frame,
skip it when only the id column remains (`shape[1] <= 1`), otherwise persist
the frame keyed by the lag number (`_lag_{n:04d}`). -/
def lagFileFor (index : List (Int × MoveInfo)) (resp : List RespRow)
    (ctx : List ContextRecord) (incl : Bool) (n : Nat) : Option (Nat × OutDf) :=
  let df := output_merged_columns (lagColsFor index resp n) ctx incl
  if df.numCols ≤ 1 then none else some (n, df)

/-- `process_multiple_lags_batch` (process.py lines 95-210): precompute all
lag columns, extract the GEOID domain over all lags, load the required years
filtered to that domain once, then process the lags in order against the
shared frame. -/
def process_multiple_lags_batch (index : List (Int × MoveInfo)) (resp : List RespRow)
    (store : Int → List ContextRecord) (avail : List Int) (year : Int → Int)
    (ns : List Nat) (incl : Bool) : List (Nat × OutDf) :=
  let gs := extract_unique_geoids index resp ns
  let ys := yearsToLoad year resp (maxLagOf ns) avail
  let ctx := loadFilteredYears store ys gs
  ns.filterMap (lagFileFor index resp ctx incl)

/-- `process_single_lag` without precomputed inputs (process.py lines
398-431), the sequential strategy's per-lag unit: compute this lag's
columns, extract this lag's GEOID domain, load this lag's required years
filtered to it, then merge and persist. -/
def process_single_lag_seq (index : List (Int × MoveInfo)) (resp : List RespRow)
    (store : Int → List ContextRecord) (avail : List Int) (year : Int → Int)
    (incl : Bool) (n : Nat) : Option (Nat × OutDf) :=
  let gs := extract_unique_geoids index resp [n]
  let ys := yearsToLoad year resp n avail
  let ctx := loadFilteredYears store ys gs
  lagFileFor index resp ctx incl n

/-- Sequential strategy: one lag at a time through `process_single_lag`. -/
def sequentialFiles (index : List (Int × MoveInfo)) (resp : List RespRow)
    (store : Int → List ContextRecord) (avail : List Int) (year : Int → Int)
    (incl : Bool) (ns : List Nat) : List (Nat × OutDf) :=
  ns.filterMap (process_single_lag_seq index resp store avail year incl)

/-- `process_multiple_lags_parallel` (process.py lines 213-327): the same
precomputation as the batch strategy (shared lag columns and filtered
contextual frame), with the per-lag merges dispatched to a worker pool;
results are collected `as_completed`, i.e. in an arbitrary completion order
`order`, a permutation of `n_days`. -/
def process_multiple_lags_parallel (index : List (Int × MoveInfo)) (resp : List RespRow)
    (store : Int → List ContextRecord) (avail : List Int) (year : Int → Int)
    (ns : List Nat) (order : List Nat) (incl : Bool) : List (Nat × OutDf) :=
  let gs := extract_unique_geoids index resp ns
  let ys := yearsToLoad year resp (maxLagOf ns) avail
  let ctx := loadFilteredYears store ys gs
  order.filterMap (lagFileFor index resp ctx incl)

/-- The canonical per-lag ordering applied before assembly
(`run_pipeline` sorts the persisted files by their `_lag_{n}` key,
link_lags.py line 164): for each requested lag in order, the first persisted
file keyed by it, if any. -/
def canonicalize (ns : List Nat) (fs : List (Nat × OutDf)) : List (Nat × OutDf) :=
  ns.filterMap (fun n => (fs.filter (fun f => decide (f.1 = n))).head?)

theorem lagFileFor_key (index : List (Int × MoveInfo)) (resp : List RespRow)
    (ctx : List ContextRecord) (incl : Bool) (n k : Nat) (df : OutDf)
    (h : lagFileFor index resp ctx incl n = some (k, df)) : k = n := by
  rw [lagFileFor] at h
  by_cases hc : (output_merged_columns (lagColsFor index resp n) ctx incl).numCols ≤ 1
  · simp [hc] at h
  · simp [hc] at h
    exact h.1.symm

/-- Claim C3: before any lag merges run, only the years of the computed
required range are loaded; the filtered store retains only records whose
area code is in the union of resolved area codes over all lags; and that
union covers every area code any per-lag merge uses, so the filtering never
drops a needed area code. -/
theorem filtered_load_sound (index : List (Int × MoveInfo)) (resp : List RespRow)
    (store : Int → List ContextRecord) (avail : List Int) (year : Int → Int)
    (ns : List Nat) :
    (∀ y ∈ yearsToLoad year resp (maxLagOf ns) avail,
        y ∈ compute_required_years year (resp.map (fun r => r.refDate)) (maxLagOf ns)) ∧
    (∀ r ∈ loadFilteredYears store (yearsToLoad year resp (maxLagOf ns) avail)
        (extract_unique_geoids index resp ns),
        r.geoid ∈ extract_unique_geoids index resp ns) ∧
    (∀ n ∈ ns, ∀ lc ∈ lagColsFor index resp n, ∀ g, lc.geoid = some g →
        g ∈ extract_unique_geoids index resp ns) := by
  refine ⟨?_, ?_, ?_⟩
  · intro y hy
    exact (List.mem_filter.mp hy).1
  · intro r hr
    rw [loadFilteredYears] at hr
    rcases List.mem_flatten.mp hr with ⟨l, hl, hrl⟩
    rcases List.mem_map.mp hl with ⟨y, _, rfl⟩
    have := (List.mem_filter.mp hrl).2
    simpa using this
  · intro n hn lc hlc g hg
    rw [extract_unique_geoids]
    apply List.mem_flatten.mpr
    refine ⟨(lagColsFor index resp n).filterMap (fun lc => lc.geoid), ?_, ?_⟩
    · exact List.mem_map.mpr ⟨n, hn, rfl⟩
    · exact List.mem_filterMap.mpr ⟨lc, hlc, hg⟩

def exResp : List RespRow := [{ id := some 7, refDate := 20 }]

/-- Claim C3 witness: on a concrete index/respondent table with lags
`[0, 7]`, the GEOID the lag-0 merge uses is in the loaded-domain union. -/
theorem filtered_load_sound_witness :
    "00000000002" ∈ extract_unique_geoids exIndex exResp [0, 7] :=
  (filtered_load_sound exIndex exResp (fun _ => []) [] (fun d => d) [0, 7]).2.2 0
    (by decide) { id := some 7, lagDate := 20, geoid := some "00000000002" }
    (by decide) "00000000002" rfl

/-- Claim C6 (amended): for a lag whose resolved area codes are all
unknown/NA, no merge against the contextual store is attempted (the output
is the same as with an empty store) and no measurement column is ever
produced; under the default `include_lag_date = False` the frame has only
the id column, so no per-lag file is written (sequentially or in the batch
loop) and processing continues; with `include_lag_date = True` the source
does write a file for the lag, holding only the id/date/GEOID columns. -/
theorem all_unknown_lag_skipped (index : List (Int × MoveInfo)) (resp : List RespRow)
    (store : Int → List ContextRecord) (avail : List Int) (year : Int → Int)
    (ns : List Nat) (n : Nat)
    (hall : (lagColsFor index resp n).all (fun lc => lc.geoid.isNone)) :
    (∀ ctx, output_merged_columns (lagColsFor index resp n) ctx false =
        output_merged_columns (lagColsFor index resp n) [] false) ∧
    (output_merged_columns (lagColsFor index resp n) [] false).numCols = 1 ∧
    (∀ ctx, (output_merged_columns (lagColsFor index resp n) ctx true).hasValueCol = false) ∧
    (∀ ctx, lagFileFor index resp ctx false n = none) ∧
    process_single_lag_seq index resp store avail year false n = none ∧
    (∀ df, (n, df) ∉ process_multiple_lags_batch index resp store avail year ns false) := by
  have hout : ∀ ctx incl, output_merged_columns (lagColsFor index resp n) ctx incl =
      { includeLagDate := incl, hasValueCol := false,
        rows := (lagColsFor index resp n).map (fun lc =>
          { id := lc.id, lagDate := lc.lagDate, geoid := lc.geoid, value := none }) } := by
    intro ctx incl
    rw [output_merged_columns, if_pos hall]
  have hfile : ∀ ctx, lagFileFor index resp ctx false n = none := by
    intro ctx
    rw [lagFileFor, hout ctx false]
    rfl
  refine ⟨fun ctx => by rw [hout ctx false, hout [] false],
    by rw [hout]; rfl, fun ctx => by rw [hout],
    hfile, hfile _, ?_⟩
  intro df hmem
  rcases List.mem_filterMap.mp hmem with ⟨m, _, hsome⟩
  have hkey : n = m := lagFileFor_key _ _ _ _ _ _ _ hsome
  rw [← hkey] at hsome
  rw [hfile _] at hsome
  cases hsome

def exRespU : List RespRow := [{ id := some 1, refDate := 100 }]

/-- Claim C6, counterexample: with `include_lag_date = True`, a lag whose
area codes are all unknown does produce a persisted per-lag file (holding
the id, lag-date and GEOID columns and no measurement), contradicting the
claim that no per-lag result file is produced. -/
theorem all_unknown_lag_emits_file_with_lag_date :
    process_multiple_lags_batch exIndex exRespU (fun _ => []) [] (fun d => d) [3] true =
      [(3, { includeLagDate := true, hasValueCol := false,
             rows := [{ id := some 1, lagDate := 97, geoid := none, value := none }] })] := by
  rfl

/-- Claim C6 amended-theorem witness: a concrete all-unknown lag is skipped
by the sequential path under the default configuration. -/
theorem all_unknown_lag_skipped_witness :
    process_single_lag_seq exIndex exRespU (fun _ => []) [] (fun d => d) false 3 = none :=
  (all_unknown_lag_skipped exIndex exRespU (fun _ => []) [] (fun d => d) [3] 3
    (by decide)).2.2.2.2.1

/-! ## Equivalence of the execution strategies -/

theorem min?_le_of_mem : ∀ {l : List Int} {a b : Int}, l.min? = some a → b ∈ l → a ≤ b := by
  intro l
  induction l with
  | nil => intro a b h hb; cases hb
  | cons x xs ih =>
    intro a b h hb
    rw [List.min?_cons] at h
    have ha := (Option.some.inj h).symm
    rcases hm : xs.min? with _ | m
    · have hxs : xs = [] := List.min?_eq_none_iff.mp hm
      subst hxs
      rw [hm] at ha
      simp at ha hb
      subst ha; subst hb; exact le_refl b
    · rw [hm] at ha
      simp at ha
      subst ha
      rcases List.mem_cons.mp hb with rfl | hb
      · exact min_le_left _ _
      · exact le_trans (min_le_right _ _) (ih hm hb)

theorem le_max?_of_mem : ∀ {l : List Int} {a b : Int}, l.max? = some a → b ∈ l → b ≤ a := by
  intro l
  induction l with
  | nil => intro a b h hb; cases hb
  | cons x xs ih =>
    intro a b h hb
    rw [List.max?_cons] at h
    have ha := (Option.some.inj h).symm
    rcases hm : xs.max? with _ | m
    · have hxs : xs = [] := List.max?_eq_none_iff.mp hm
      subst hxs
      rw [hm] at ha
      simp at ha hb
      subst ha; subst hb; exact le_refl b
    · rw [hm] at ha
      simp at ha
      subst ha
      rcases List.mem_cons.mp hb with rfl | hb
      · exact le_max_left _ _
      · exact le_trans (ih hm hb) (le_max_right _ _)

theorem mem_intRange (a b y : Int) : y ∈ intRange a b ↔ a ≤ y ∧ y ≤ b := by
  rw [intRange]
  constructor
  · intro h
    rcases List.mem_map.mp h with ⟨i, hi, rfl⟩
    have := List.mem_range.mp hi
    omega
  · intro ⟨h1, h2⟩
    apply List.mem_map.mpr
    refine ⟨(y - a).toNat, List.mem_range.mpr (by omega), by omega⟩

theorem intRange_nodup (a b : Int) : (intRange a b).Nodup := by
  rw [intRange]
  exact (List.nodup_range _).map (fun i j hij => by omega)

theorem compute_required_years_nodup (year : Int → Int) (dates : List Int) (L : Nat) :
    (compute_required_years year dates L).Nodup := by
  rw [compute_required_years]
  rcases dates.min? with _ | lo <;> rcases dates.max? with _ | hi
  · exact List.nodup_nil
  · exact List.nodup_nil
  · exact List.nodup_nil
  · exact intRange_nodup _ _

theorem yearsToLoad_nodup (year : Int → Int) (resp : List RespRow) (L : Nat)
    (avail : List Int) : (yearsToLoad year resp L avail).Nodup :=
  (compute_required_years_nodup year _ L).filter _

theorem le_maxLagOf (ns : List Nat) (n : Nat) (h : n ∈ ns) : n ≤ maxLagOf ns := by
  rw [maxLagOf]
  have haux : ∀ (l : List Nat) (x b : Nat), b ∈ l ∨ b ≤ x → b ≤ l.foldl max x := by
    intro l
    induction l with
    | nil =>
      intro x b hb
      rcases hb with hb | hb
      · cases hb
      · exact hb
    | cons y ys ih =>
      intro x b hb
      rcases hb with hb | hb
      · rcases List.mem_cons.mp hb with rfl | hb
        · exact ih (max x b) b (Or.inr (le_max_right x b))
        · exact ih (max x y) b (Or.inl hb)
      · exact ih (max x y) b (Or.inr (le_trans hb (le_max_left x y)))
  exact haux ns 0 n (Or.inl h)

/-- The lag-`n` target date of any respondent row lands in the required year
range computed for any `max_lag ≥ n`. -/
theorem lagDate_year_mem (year : Int → Int)
    (hmono : ∀ a b : Int, a ≤ b → year a ≤ year b)
    (resp : List RespRow) (r : RespRow) (hr : r ∈ resp) (n L : Nat) (hnL : n ≤ L) :
    year (r.refDate - (n : Int)) ∈
      compute_required_years year (resp.map (fun x => x.refDate)) L := by
  have hmem : r.refDate ∈ resp.map (fun x => x.refDate) :=
    List.mem_map.mpr ⟨r, hr, rfl⟩
  rcases hmin : (resp.map (fun x => x.refDate)).min? with _ | lo
  · rw [List.min?_eq_none_iff] at hmin
    rw [hmin] at hmem
    cases hmem
  rcases hmax : (resp.map (fun x => x.refDate)).max? with _ | hi
  · rw [List.max?_eq_none_iff] at hmax
    rw [hmax] at hmem
    cases hmem
  rw [compute_required_years, hmin, hmax]
  apply (mem_intRange _ _ _).mpr
  have hlo : lo ≤ r.refDate := min?_le_of_mem hmin hmem
  have hhi : r.refDate ≤ hi := le_max?_of_mem hmax hmem
  constructor
  · exact hmono _ _ (by omega)
  · exact hmono _ _ (by omega)

/-- Every GEOID appearing in a lag column of a processed lag is in the
extracted GEOID domain. -/
theorem mem_extract_unique_geoids (index : List (Int × MoveInfo)) (resp : List RespRow)
    (ns : List Nat) (n : Nat) (lc : LagCols) (g : String) (hn : n ∈ ns)
    (hlc : lc ∈ lagColsFor index resp n) (hg : lc.geoid = some g) :
    g ∈ extract_unique_geoids index resp ns := by
  rw [extract_unique_geoids]
  apply List.mem_flatten.mpr
  refine ⟨(lagColsFor index resp n).filterMap (fun lc => lc.geoid), ?_, ?_⟩
  · exact List.mem_map.mpr ⟨n, hn, rfl⟩
  · exact List.mem_filterMap.mpr ⟨lc, hlc, hg⟩

theorem ctxMatches_geoid_none (ctx : List ContextRecord) (lc : LagCols)
    (h : lc.geoid = none) : ctxMatches ctx lc = [] := by
  apply List.filter_eq_nil_iff.mpr
  intro c _
  simp [h]

theorem mem_ctxMatches_geoid (ctx : List ContextRecord) (lc : LagCols)
    (c : ContextRecord) (hc : c ∈ ctxMatches ctx lc) :
    c.date = lc.lagDate ∧ lc.geoid = some c.geoid := by
  have := (List.mem_filter.mp hc).2
  simpa using this

theorem ctxMatches_filter_domain (l : List ContextRecord) (gs : List String)
    (lc : LagCols) (g : String) (hg : lc.geoid = some g) :
    ctxMatches (l.filter (fun r => decide (r.geoid ∈ gs))) lc =
      if g ∈ gs then ctxMatches l lc else [] := by
  rw [ctxMatches, List.filter_filter]
  by_cases hgs : g ∈ gs
  · rw [if_pos hgs, ctxMatches]
    apply List.filter_congr
    intro c _
    by_cases hc : c.date = lc.lagDate ∧ lc.geoid = some c.geoid
    · have hcg : c.geoid = g := by
        rw [hg] at hc
        exact (Option.some.inj hc.2).symm
      simp [hc, hcg, hgs]
    · simp [hc]
  · rw [if_neg hgs]
    apply List.filter_eq_nil_iff.mpr
    intro c _
    by_cases hc : c.date = lc.lagDate ∧ lc.geoid = some c.geoid
    · have hcg : c.geoid = g := by
        rw [hg] at hc
        exact (Option.some.inj hc.2).symm
      simp [hc, hcg, hgs]
    · simp [hc]

theorem ctxMatches_store_other (store : Int → List ContextRecord) (year : Int → Int)
    (y : Int) (lc : LagCols)
    (hpart : ∀ z r, r ∈ store z → year r.date = z)
    (hy : year lc.lagDate ≠ y) : ctxMatches (store y) lc = [] := by
  apply List.filter_eq_nil_iff.mpr
  intro c hc
  by_cases hm : c.date = lc.lagDate ∧ lc.geoid = some c.geoid
  · exfalso
    apply hy
    rw [← hm.1]
    exact hpart y c hc
  · simp [hm]

/-- Locality of the filtered load: a lag row's merge matches depend only on
its own year's partition, provided records are partitioned by calendar year
and the loaded year list has no duplicates. -/
theorem ctxMatches_loadFiltered (store : Int → List ContextRecord) (year : Int → Int)
    (Y : List Int) (gs : List String) (lc : LagCols) (g : String)
    (hpart : ∀ z r, r ∈ store z → year r.date = z) (hnd : Y.Nodup)
    (hg : lc.geoid = some g) :
    ctxMatches (loadFilteredYears store Y gs) lc =
      if year lc.lagDate ∈ Y ∧ g ∈ gs then
        ctxMatches (store (year lc.lagDate)) lc
      else [] := by
  induction Y with
  | nil =>
    simp [loadFilteredYears, ctxMatches]
  | cons y Y ih =>
    have hload : loadFilteredYears store (y :: Y) gs =
        (store y).filter (fun r => decide (r.geoid ∈ gs)) ++ loadFilteredYears store Y gs := by
      rw [loadFilteredYears, loadFilteredYears, List.map_cons, List.flatten_cons]
    rw [hload, ctxMatches, List.filter_append, ← ctxMatches, ← ctxMatches]
    have hndY : Y.Nodup := (List.nodup_cons.mp hnd).2
    have hyY : y ∉ Y := (List.nodup_cons.mp hnd).1
    rw [ih hndY, ctxMatches_filter_domain _ _ _ _ hg]
    by_cases hy : year lc.lagDate = y
    · have hnotY : year lc.lagDate ∉ Y := by rw [hy]; exact hyY
      have hmemC : year lc.lagDate ∈ y :: Y := by
        rw [hy]; exact List.mem_cons_self y Y
      by_cases hgs : g ∈ gs
      · have hc3 : year lc.lagDate ∈ y :: Y ∧ g ∈ gs := ⟨hmemC, hgs⟩
        rw [if_pos hgs, if_neg (fun hc => hnotY hc.1), if_pos hc3, hy]
        simp
      · rw [if_neg hgs, if_neg (fun hc => hgs hc.2), if_neg (fun hc => hgs hc.2)]
        rfl
    · rw [ctxMatches_store_other store year y lc hpart hy]
      have hiff : (year lc.lagDate ∈ y :: Y) ↔ (year lc.lagDate ∈ Y) := by
        simp [List.mem_cons, hy]
      by_cases hmem : year lc.lagDate ∈ Y ∧ g ∈ gs
      · have hc3 : year lc.lagDate ∈ y :: Y ∧ g ∈ gs := ⟨hiff.mpr hmem.1, hmem.2⟩
        rw [if_pos hmem, if_pos hc3, if_pos hmem.2]
        simp
      · have hc3 : ¬ (year lc.lagDate ∈ y :: Y ∧ g ∈ gs) :=
          fun hc => hmem ⟨hiff.mp hc.1, hc.2⟩
        rw [if_neg hmem, if_neg hc3]
        simp

theorem flatMap_congr_mem {α β : Type} (l : List α) (f g : α → List β)
    (h : ∀ a ∈ l, f a = g a) : l.flatMap f = l.flatMap g := by
  induction l with
  | nil => rfl
  | cons x xs ih =>
    rw [List.flatMap_cons, List.flatMap_cons, h x (by simp),
      ih (fun a ha => h a (by simp [ha]))]

/-- The per-lag merge depends on the contextual frame only through each lag
row's matches. -/
theorem output_merged_congr (lt : List LagCols) (ctx1 ctx2 : List ContextRecord)
    (incl : Bool) (h : ∀ lc ∈ lt, ctxMatches ctx1 lc = ctxMatches ctx2 lc) :
    output_merged_columns lt ctx1 incl = output_merged_columns lt ctx2 incl := by
  rw [output_merged_columns, output_merged_columns]
  by_cases hall : lt.all (fun lc => lc.geoid.isNone)
  · rw [if_pos hall, if_pos hall]
  · rw [if_neg hall, if_neg hall]
    congr 1
    apply flatMap_congr_mem
    intro lc hlc
    rw [h lc hlc]

/-- Core of the strategy equivalence: for a processed lag, the per-lag merge
against this lag's own filtered load (sequential strategy) equals the merge
against the shared all-lags filtered load (batch/parallel strategies). -/
theorem seq_ctx_eq_batch_ctx (index : List (Int × MoveInfo)) (resp : List RespRow)
    (store : Int → List ContextRecord) (avail : List Int) (year : Int → Int)
    (ns : List Nat) (n : Nat) (incl : Bool)
    (hpart : ∀ z r, r ∈ store z → year r.date = z)
    (hmono : ∀ a b : Int, a ≤ b → year a ≤ year b)
    (hn : n ∈ ns) :
    output_merged_columns (lagColsFor index resp n)
      (loadFilteredYears store (yearsToLoad year resp n avail)
        (extract_unique_geoids index resp [n])) incl =
    output_merged_columns (lagColsFor index resp n)
      (loadFilteredYears store (yearsToLoad year resp (maxLagOf ns) avail)
        (extract_unique_geoids index resp ns)) incl := by
  apply output_merged_congr
  intro lc hlc
  rcases hgeo : lc.geoid with _ | g
  · rw [ctxMatches_geoid_none _ _ hgeo, ctxMatches_geoid_none _ _ hgeo]
  · rw [ctxMatches_loadFiltered store year _ _ lc g hpart
      (yearsToLoad_nodup year resp n avail) hgeo,
      ctxMatches_loadFiltered store year _ _ lc g hpart
      (yearsToLoad_nodup year resp (maxLagOf ns) avail) hgeo]
    rcases List.mem_map.mp hlc with ⟨r, hr, hlceq⟩
    have hld : lc.lagDate = r.refDate - (n : Int) := by rw [← hlceq]
    have hy1 : year lc.lagDate ∈
        compute_required_years year (resp.map (fun x => x.refDate)) n := by
      rw [hld]
      exact lagDate_year_mem year hmono resp r hr n n (le_refl n)
    have hy2 : year lc.lagDate ∈
        compute_required_years year (resp.map (fun x => x.refDate)) (maxLagOf ns) := by
      rw [hld]
      exact lagDate_year_mem year hmono resp r hr n (maxLagOf ns) (le_maxLagOf ns n hn)
    have hg1 : g ∈ extract_unique_geoids index resp [n] :=
      mem_extract_unique_geoids index resp [n] n lc g (by simp) hlc hgeo
    have hg2 : g ∈ extract_unique_geoids index resp ns :=
      mem_extract_unique_geoids index resp ns n lc g hn hlc hgeo
    by_cases hav : year lc.lagDate ∈ avail
    · rw [if_pos ⟨List.mem_filter.mpr ⟨hy1, by simpa using hav⟩, hg1⟩,
        if_pos ⟨List.mem_filter.mpr ⟨hy2, by simpa using hav⟩, hg2⟩]
    · rw [if_neg (fun hc => hav (by simpa using (List.mem_filter.mp hc.1).2)),
        if_neg (fun hc => hav (by simpa using (List.mem_filter.mp hc.1).2))]

theorem lagFileFor_congr (index : List (Int × MoveInfo)) (resp : List RespRow)
    (ctx1 ctx2 : List ContextRecord) (incl : Bool) (n : Nat)
    (h : output_merged_columns (lagColsFor index resp n) ctx1 incl =
      output_merged_columns (lagColsFor index resp n) ctx2 incl) :
    lagFileFor index resp ctx1 incl n = lagFileFor index resp ctx2 incl n := by
  rw [lagFileFor, lagFileFor, h]

theorem filterMap_filter_key (l : List Nat) (body : Nat → Option (Nat × OutDf))
    (hkey : ∀ m p, body m = some p → p.1 = m) (n : Nat) :
    (l.filterMap body).filter (fun f => decide (f.1 = n)) =
      (l.filter (fun m => decide (m = n))).filterMap body := by
  induction l with
  | nil => rfl
  | cons x xs ih =>
    rcases hbx : body x with _ | p
    · rw [List.filterMap_cons_none hbx]
      by_cases hx : x = n
      · rw [List.filter_cons_of_pos (by simpa using hx), List.filterMap_cons_none hbx, ih]
      · rw [List.filter_cons_of_neg (by simpa using hx), ih]
    · have hp := hkey x p hbx
      rw [List.filterMap_cons_some hbx]
      by_cases hx : x = n
      · rw [List.filter_cons_of_pos (by simp [hp, hx]),
          List.filter_cons_of_pos (by simpa using hx),
          List.filterMap_cons_some hbx, ih]
      · rw [List.filter_cons_of_neg (by simp [hp, hx]),
          List.filter_cons_of_neg (by simpa using hx), ih]

theorem filter_key_eq_of_perm (l1 l2 : List Nat) (n : Nat) (h : l1.Perm l2) :
    l1.filter (fun m => decide (m = n)) = l2.filter (fun m => decide (m = n)) := by
  have hp := h.filter (fun m => decide (m = n))
  have h1 : l1.filter (fun m => decide (m = n)) =
      List.replicate (l1.filter (fun m => decide (m = n))).length n :=
    List.eq_replicate_of_mem (fun b hb => by simpa using (List.mem_filter.mp hb).2)
  have h2 : l2.filter (fun m => decide (m = n)) =
      List.replicate (l2.filter (fun m => decide (m = n))).length n :=
    List.eq_replicate_of_mem (fun b hb => by simpa using (List.mem_filter.mp hb).2)
  rw [h1, h2, hp.length_eq]

/-! ## Final assembly (`run_pipeline`, link_lags.py lines 160-170) -/

/-- A row of the assembled final table: the respondent id and, per persisted
lag file merged so far, the value its measurement column contributed (files
without a measurement column contribute no column). -/
structure ARow where
  id : Option Int
  vals : List (Option Int)
deriving Repr, DecidableEq

/-- The contribution of one current row to one left-merge of the assembly
loop: the row joined against one per-lag table on the id column — an
unmatched row is kept once with a null measurement, a matched row is
repeated per matching file row (pandas `merge` factorizes keys, so NA ids
match NA ids). -/
def mergeRowWith (f : OutDf) (a : ARow) : List ARow :=
  match f.rows.filter (fun m => decide (m.id = a.id)) with
  | [] => [{ id := a.id, vals := a.vals ++ (if f.hasValueCol then [none] else []) }]
  | ms => ms.map (fun m =>
      { id := a.id, vals := a.vals ++ (if f.hasValueCol then [m.value] else []) })

/-- One left-merge of the assembly loop over the whole current table. -/
def mergeStep (rows : List ARow) (f : OutDf) : List ARow :=
  rows.flatMap (mergeRowWith f)

/-- `run_pipeline`'s assembly: start from the base respondent table and
left-merge each persisted per-lag table, in the canonical (sorted-by-lag)
order, onto it. -/
def assembleFinal (ids : List (Option Int)) (files : List (Nat × OutDf)) : List ARow :=
  files.foldl (fun rows nf => mergeStep rows nf.2) (ids.map (fun i => { id := i, vals := [] }))

/-- Claim C4: for a fixed input (respondent table, move history, contextual
store, lag set) the three execution strategies agree: the batch run equals
the sequential run file-for-file, the parallel run collected in any
completion order equals them after the canonical sort by lag number, and the
assembled final tables coincide.  Hypotheses: contextual records are
partitioned by calendar year, the calendar-year function is monotone, and
the parallel completion order is a permutation of the lag list. -/
theorem strategies_equivalent (index : List (Int × MoveInfo)) (resp : List RespRow)
    (store : Int → List ContextRecord) (avail : List Int) (year : Int → Int)
    (ns : List Nat) (order : List Nat) (incl : Bool)
    (hpart : ∀ z r, r ∈ store z → year r.date = z)
    (hmono : ∀ a b : Int, a ≤ b → year a ≤ year b)
    (hperm : order.Perm ns) :
    process_multiple_lags_batch index resp store avail year ns incl =
      sequentialFiles index resp store avail year incl ns ∧
    canonicalize ns (process_multiple_lags_parallel index resp store avail year ns order incl) =
      canonicalize ns (process_multiple_lags_batch index resp store avail year ns incl) ∧
    assembleFinal (resp.map (fun r => r.id))
        (canonicalize ns (process_multiple_lags_parallel index resp store avail year ns order incl)) =
      assembleFinal (resp.map (fun r => r.id))
        (canonicalize ns (sequentialFiles index resp store avail year incl ns)) := by
  have hbatchseq : process_multiple_lags_batch index resp store avail year ns incl =
      sequentialFiles index resp store avail year incl ns := by
    simp only [process_multiple_lags_batch, sequentialFiles]
    apply List.filterMap_congr
    intro n hn
    simp only [process_single_lag_seq]
    exact (lagFileFor_congr index resp _ _ incl n
      (seq_ctx_eq_batch_ctx index resp store avail year ns n incl hpart hmono hn)).symm
  have hkey : ∀ m p, lagFileFor index resp
      (loadFilteredYears store (yearsToLoad year resp (maxLagOf ns) avail)
        (extract_unique_geoids index resp ns)) incl m = some p → p.1 = m := by
    intro m p hm
    cases p with
    | mk k df => exact lagFileFor_key index resp _ incl m k df hm
  have hparbatch : canonicalize ns
      (process_multiple_lags_parallel index resp store avail year ns order incl) =
      canonicalize ns (process_multiple_lags_batch index resp store avail year ns incl) := by
    simp only [process_multiple_lags_parallel, process_multiple_lags_batch, canonicalize]
    apply List.filterMap_congr
    intro n _
    rw [filterMap_filter_key order _ hkey n, filterMap_filter_key ns _ hkey n,
      filter_key_eq_of_perm order ns n hperm]
  refine ⟨hbatchseq, hparbatch, ?_⟩
  rw [hparbatch, hbatchseq]

def exStoreW : Int → List ContextRecord := fun y =>
  if y = 18 then [{ date := 18, geoid := "00000000001", value := 42 }] else []

def exAvailW : List Int := [18, 19, 20]

/-- Claim C4 witness: on a concrete two-lag input with a contextual record in
the 2-day-lag year, the batch run equals the sequential run. -/
theorem strategies_equivalent_witness :
    process_multiple_lags_batch exIndex exResp exStoreW exAvailW (fun d => d) [0, 2] false =
      sequentialFiles exIndex exResp exStoreW exAvailW (fun d => d) false [0, 2] :=
  (strategies_equivalent exIndex exResp exStoreW exAvailW (fun d => d) [0, 2] [2, 0] false
    (by
      intro z r hr
      rw [exStoreW] at hr
      by_cases hz : z = 18
      · subst hz
        simp at hr
        subst hr
        rfl
      · rw [if_neg hz] at hr
        cases hr)
    (fun a b hab => hab) (by decide)).1

/-! ## Per-lag failure policy -/

/-- Exception-aware view of one lag's processing, `process_single_lag`
(process.py lines 330-453): the merge and the temp-file write may raise
(`Except.error`); the whole body is wrapped in `try/except`, which logs and
returns `None`, so no exception escapes. -/
def process_single_lagE (mergeFn : Nat → Except String OutDf)
    (writeFn : Nat → OutDf → Except String (Nat × OutDf)) (n : Nat) :
    Option (Nat × OutDf) :=
  match mergeFn n with
  | Except.error _ => none
  | Except.ok df =>
    if df.numCols ≤ 1 then none
    else
      match writeFn n df with
      | Except.error _ => none
      | Except.ok f => some f

/-- Sequential strategy under the exception-aware view: one
`process_single_lag` call per lag, each failure locally recovered. -/
def sequentialFilesE (mergeFn : Nat → Except String OutDf)
    (writeFn : Nat → OutDf → Except String (Nat × OutDf)) (ns : List Nat) :
    List (Nat × OutDf) :=
  ns.filterMap (process_single_lagE mergeFn writeFn)

/-- The step-4 loop of `process_multiple_lags_batch` (process.py lines
173-210) under the exception-aware view: the loop body calls the merge and
the write with no `try/except`, so the first exception propagates out of the
whole run. -/
def batchLoopE (mergeFn : Nat → Except String OutDf)
    (writeFn : Nat → OutDf → Except String (Nat × OutDf))
    (acc : List (Nat × OutDf)) : List Nat → Except String (List (Nat × OutDf))
  | [] => Except.ok acc
  | n :: rest =>
    match mergeFn n with
    | Except.error e => Except.error e
    | Except.ok df =>
      if df.numCols ≤ 1 then batchLoopE mergeFn writeFn acc rest
      else
        match writeFn n df with
        | Except.error e => Except.error e
        | Except.ok f => batchLoopE mergeFn writeFn (acc ++ [f]) rest

def batchFilesE (mergeFn : Nat → Except String OutDf)
    (writeFn : Nat → OutDf → Except String (Nat × OutDf)) (ns : List Nat) :
    Except String (List (Nat × OutDf)) :=
  batchLoopE mergeFn writeFn [] ns

/-- Parallel strategy under the exception-aware view
(process.py lines 296-325): each worker runs `process_single_lag`, whose
handler already recovers, and the collector catches `fut.result()`
exceptions again; results arrive in completion order. -/
def parallelFilesE (mergeFn : Nat → Except String OutDf)
    (writeFn : Nat → OutDf → Except String (Nat × OutDf)) (order : List Nat) :
    List (Nat × OutDf) :=
  order.filterMap (process_single_lagE mergeFn writeFn)

theorem filterMap_drop_none {α β : Type} [DecidableEq α] (l : List α) (f : α → Option β)
    (a : α) (hf : f a = none) :
    l.filterMap f = (l.filter (fun x => decide (x ≠ a))).filterMap f := by
  induction l with
  | nil => rfl
  | cons x xs ih =>
    by_cases hx : x = a
    · subst hx
      rw [List.filterMap_cons_none hf, List.filter_cons_of_neg (by simp), ih]
    · rw [List.filter_cons_of_pos (by simpa using hx)]
      rcases hfx : f x with _ | b
      · rw [List.filterMap_cons_none hfx, List.filterMap_cons_none hfx, ih]
      · rw [List.filterMap_cons_some hfx, List.filterMap_cons_some hfx, ih]

theorem batchLoopE_error_of_merge_error (mergeFn : Nat → Except String OutDf)
    (writeFn : Nat → OutDf → Except String (Nat × OutDf)) (n : Nat) (e : String)
    (hfail : mergeFn n = Except.error e) :
    ∀ (ns : List Nat) (acc : List (Nat × OutDf)), n ∈ ns →
      ∃ msg, batchLoopE mergeFn writeFn acc ns = Except.error msg := by
  intro ns
  induction ns with
  | nil => intro acc h; cases h
  | cons m rest ih =>
    intro acc hmem
    rcases hm : mergeFn m with e' | df
    · exact ⟨e', by rw [batchLoopE, hm]⟩
    · have hnm : n ≠ m := fun hnm => by rw [hnm, hm] at hfail; cases hfail
      have hrest : n ∈ rest := by
        rcases List.mem_cons.mp hmem with rfl | h
        · exact absurd rfl hnm
        · exact h
      rw [batchLoopE, hm]
      dsimp only
      by_cases hc : df.numCols ≤ 1
      · rw [if_pos hc]
        exact ih acc hrest
      · rw [if_neg hc]
        rcases hw : writeFn m df with e' | f
        · exact ⟨e', rfl⟩
        · exact ih (acc ++ [f]) hrest

/-- Claim C5 (amended): in the sequential and parallel strategies an
exception in one lag's merge is caught (`process_single_lag` returns `None`)
and that lag alone is dropped — the run over the remaining lags is
unchanged; in the batched strategy, however, the step-4 loop has no handler,
so one lag's merge exception aborts the whole run. -/
theorem lag_failure_policy (mergeFn : Nat → Except String OutDf)
    (writeFn : Nat → OutDf → Except String (Nat × OutDf)) (ns order : List Nat)
    (n : Nat) (e : String) (hfail : mergeFn n = Except.error e) :
    process_single_lagE mergeFn writeFn n = none ∧
    sequentialFilesE mergeFn writeFn ns =
      sequentialFilesE mergeFn writeFn (ns.filter (fun m => decide (m ≠ n))) ∧
    parallelFilesE mergeFn writeFn order =
      parallelFilesE mergeFn writeFn (order.filter (fun m => decide (m ≠ n))) ∧
    (n ∈ ns → ∃ msg, batchFilesE mergeFn writeFn ns = Except.error msg) := by
  have hstep : process_single_lagE mergeFn writeFn n = none := by
    rw [process_single_lagE, hfail]
  refine ⟨hstep, ?_, ?_, ?_⟩
  · rw [sequentialFilesE, sequentialFilesE]
    exact filterMap_drop_none ns _ n hstep
  · rw [parallelFilesE, parallelFilesE]
    exact filterMap_drop_none order _ n hstep
  · intro hmem
    exact batchLoopE_error_of_merge_error mergeFn writeFn n e hfail ns [] hmem

def exMergeFail : Nat → Except String OutDf := fun n =>
  if n = 1 then Except.error "malformed contextual row"
  else
    Except.ok
      { includeLagDate := false, hasValueCol := true,
        rows := [{ id := some 7, lagDate := 0, geoid := some "00000000001",
                   value := some 5 }] }

def exWriteOk : Nat → OutDf → Except String (Nat × OutDf) := fun n df => Except.ok (n, df)

/-- Claim C5, counterexample: with lags `[0, 1, 2]` and lag 1's merge
raising, the batch strategy aborts with the exception instead of completing
with the remaining lags (the sequential strategy, shown alongside, does
recover and keeps lags 0 and 2). -/
theorem batch_lag_failure_aborts :
    batchFilesE exMergeFail exWriteOk [0, 1, 2] =
      Except.error "malformed contextual row" ∧
    (sequentialFilesE exMergeFail exWriteOk [0, 1, 2]).map Prod.fst = [0, 2] := by
  constructor
  · rfl
  · rfl

/-- Claim C5 amended-theorem witness: lag 1's failure is locally recovered in
the sequential strategy — the run equals the run without lag 1. -/
theorem lag_failure_policy_witness :
    sequentialFilesE exMergeFail exWriteOk [0, 1, 2] =
      sequentialFilesE exMergeFail exWriteOk
        ([0, 1, 2].filter (fun m => decide (m ≠ 1))) :=
  (lag_failure_policy exMergeFail exWriteOk [0, 1, 2] [0, 1, 2] 1
    "malformed contextual row" (by rfl)).2.1

/-! ## Row-count preservation of the assembly -/

theorem length_filter_key_le_one {α β : Type} [DecidableEq β] (l : List α) (key : α → β)
    (hnd : (l.map key).Nodup) (x : β) :
    (l.filter (fun a => decide (key a = x))).length ≤ 1 := by
  induction l with
  | nil => simp
  | cons a as ih =>
    rw [List.map_cons, List.nodup_cons] at hnd
    by_cases hx : key a = x
    · rw [List.filter_cons_of_pos (by simpa using hx)]
      have hnil : as.filter (fun b => decide (key b = x)) = [] := by
        apply List.filter_eq_nil_iff.mpr
        intro b hb
        simp only [decide_eq_true_eq]
        intro hbx
        exact hnd.1 (List.mem_map.mpr ⟨b, hb, by rw [hbx, hx]⟩)
      rw [hnil]
      simp
    · rw [List.filter_cons_of_neg (by simpa using hx)]
      exact ih hnd.2

theorem mergeRowWith_length (f : OutDf) (a : ARow)
    (hnd : (f.rows.map (fun m => m.id)).Nodup) :
    (mergeRowWith f a).length = 1 := by
  rcases hfil : f.rows.filter (fun m => decide (m.id = a.id)) with _ | ⟨m, ms⟩
  · rw [mergeRowWith, hfil]
    rfl
  · rw [mergeRowWith, hfil]
    have hle := length_filter_key_le_one f.rows (fun m => m.id) hnd a.id
    rw [hfil] at hle
    simp only [List.length_cons] at hle
    simp only [List.length_map, List.length_cons]
    omega

theorem mergeStep_length (rows : List ARow) (f : OutDf)
    (hnd : (f.rows.map (fun m => m.id)).Nodup) :
    (mergeStep rows f).length = rows.length := by
  induction rows with
  | nil => rfl
  | cons a rows ih =>
    rw [mergeStep, List.flatMap_cons, List.length_append, mergeRowWith_length f a hnd]
    have htail : rows.flatMap (mergeRowWith f) = mergeStep rows f := rfl
    rw [htail, ih, List.length_cons]
    omega

theorem mem_mergeRowWith (f : OutDf) (a0 a1 : ARow) (hv : f.hasValueCol = true)
    (h : a1 ∈ mergeRowWith f a0) :
    a1.id = a0.id ∧ ∃ v : Option Int, a1.vals = a0.vals ++ [v] ∧
      ((∀ m ∈ f.rows, ¬ m.id = a0.id) → v = none) := by
  rw [mergeRowWith] at h
  rcases hfil : f.rows.filter (fun m => decide (m.id = a0.id)) with _ | ⟨m, ms⟩
  · rw [hfil] at h
    simp only [hv, if_true, List.mem_singleton] at h
    refine ⟨by rw [h], none, by rw [h], fun _ => rfl⟩
  · rw [hfil] at h
    rcases List.mem_map.mp h with ⟨m', hm', rfl⟩
    have hm'mem : m' ∈ f.rows ∧ m'.id = a0.id := by
      have : m' ∈ f.rows.filter (fun m => decide (m.id = a0.id)) := by
        rw [hfil]; exact hm'
      have h2 := List.mem_filter.mp this
      exact ⟨h2.1, by simpa using h2.2⟩
    refine ⟨rfl, m'.value, by simp [hv], fun hnone => ?_⟩
    exact absurd hm'mem.2 (hnone m' hm'mem.1)

theorem mem_mergeStep (rows : List ARow) (f : OutDf) (a1 : ARow)
    (h : a1 ∈ mergeStep rows f) : ∃ a0 ∈ rows, a1 ∈ mergeRowWith f a0 := by
  rw [mergeStep] at h
  exact List.mem_flatMap.mp h

/-- Provenance of an assembled row: it extends a base-state row by exactly one
value per merged file, and the value at a file's position is null whenever
no row of that file matches the respondent id. -/
theorem foldl_mergeStep_spec (files : List (Nat × OutDf)) :
    ∀ (rows : List ARow),
    (∀ f ∈ files, ((f.2).rows.map (fun m => m.id)).Nodup) →
    (∀ f ∈ files, (f.2).hasValueCol = true) →
    ∀ a ∈ files.foldl (fun rs nf => mergeStep rs nf.2) rows,
      ∃ a0 ∈ rows, ∃ ext : List (Option Int),
        a.id = a0.id ∧ a.vals = a0.vals ++ ext ∧ ext.length = files.length ∧
        (∀ k f, files.get? k = some f → (∀ m ∈ (f.2).rows, ¬ m.id = a.id) →
          ext.get? k = some none) := by
  induction files with
  | nil =>
    intro rows _ _ a ha
    exact ⟨a, ha, [], rfl, by simp, rfl, fun k f hk => by cases hk⟩
  | cons f fs ih =>
    intro rows hnd hval a ha
    have ha' : a ∈ fs.foldl (fun rs nf => mergeStep rs nf.2) (mergeStep rows f.2) := ha
    rcases ih (mergeStep rows f.2) (fun g hg => hnd g (by simp [hg]))
      (fun g hg => hval g (by simp [hg])) a ha' with ⟨a1, ha1, ext1, hid1, hvals1, hlen1, hpos1⟩
    rcases mem_mergeStep rows f.2 a1 ha1 with ⟨a0, ha0, hmr⟩
    rcases mem_mergeRowWith f.2 a0 a1 (hval f (by simp)) hmr with ⟨hid0, v, hvals0, hcond⟩
    refine ⟨a0, ha0, v :: ext1, by rw [hid1, hid0], ?_, by simp [hlen1], ?_⟩
    · rw [hvals1, hvals0, List.append_assoc]
      rfl
    · intro k g hk hnomatch
      cases k with
      | zero =>
        have hgf : g = f := by
          simp only [List.get?] at hk
          exact (Option.some.inj hk).symm
        subst hgf
        have hvnone : v = none := by
          apply hcond
          intro m hm
          rw [← hid0, ← hid1]
          exact hnomatch m hm
        rw [hvnone]
        rfl
      | succ k =>
        have hk' : fs.get? k = some g := hk
        exact hpos1 k g hk' hnomatch

/-- Claim C7: assembling the persisted per-lag tables onto the base
respondent table by repeated left joins on the respondent id preserves the
base table's row count exactly, and a respondent without a matching row in a
given lag table holds a null value in that lag's measurement column.
Hypotheses: each per-lag table has at most one row per id (which the
pipeline guarantees when the base ids are unique and the contextual
`(date, area)` keys are unique — one daily measurement per area and day)
and carries a measurement column (`include_lag_date` unset). -/
theorem assemble_preserves_base (ids : List (Option Int)) (files : List (Nat × OutDf))
    (hnd : ∀ f ∈ files, ((f.2).rows.map (fun m => m.id)).Nodup)
    (hval : ∀ f ∈ files, (f.2).hasValueCol = true) :
    (assembleFinal ids files).length = ids.length ∧
    (∀ a ∈ assembleFinal ids files, a.vals.length = files.length) ∧
    (∀ a ∈ assembleFinal ids files, ∀ k f, files.get? k = some f →
      (∀ m ∈ (f.2).rows, ¬ m.id = a.id) → a.vals.get? k = some none) := by
  have hlen : ∀ (fls : List (Nat × OutDf)) (rows : List ARow),
      (∀ f ∈ fls, ((f.2).rows.map (fun m => m.id)).Nodup) →
      (fls.foldl (fun rs nf => mergeStep rs nf.2) rows).length = rows.length := by
    intro fls
    induction fls with
    | nil => intro rows _; rfl
    | cons f fs ihf =>
      intro rows hnd'
      have h1 : (f :: fs).foldl (fun rs nf => mergeStep rs nf.2) rows =
          fs.foldl (fun rs nf => mergeStep rs nf.2) (mergeStep rows f.2) := rfl
      rw [h1, ihf (mergeStep rows f.2) (fun g hg => hnd' g (by simp [hg])),
        mergeStep_length rows f.2 (hnd' f (by simp))]
  refine ⟨?_, ?_, ?_⟩
  · rw [assembleFinal, hlen files _ hnd]
    simp
  · intro a ha
    rcases foldl_mergeStep_spec files _ hnd hval a ha with ⟨a0, ha0, ext, _, hvals, hlen', _⟩
    rcases List.mem_map.mp ha0 with ⟨i, _, hi⟩
    rw [hvals, ← hi]
    simp [hlen']
  · intro a ha k f hk hnomatch
    rcases foldl_mergeStep_spec files _ hnd hval a ha with ⟨a0, ha0, ext, _, hvals, _, hpos⟩
    rcases List.mem_map.mp ha0 with ⟨i, _, hi⟩
    rw [hvals, ← hi]
    exact hpos k f hk hnomatch

def exFileC7 : List (Nat × OutDf) :=
  [(0, { includeLagDate := false, hasValueCol := true,
         rows := [{ id := some 1, lagDate := 5, geoid := some "00000000001",
                    value := some 9 }] })]

/-- Claim C7 witness: two respondents, one per-lag file matching only the
first — the assembled table keeps both rows and the unmatched respondent's
lag value is null. -/
theorem assemble_preserves_base_witness :
    (assembleFinal [some 1, some 2] exFileC7).length = 2 ∧
      ∀ a ∈ assembleFinal [some 1, some 2] exFileC7, ∀ k f, exFileC7.get? k = some f →
        (∀ m ∈ (f.2).rows, ¬ m.id = a.id) → a.vals.get? k = some none := by
  have h := assemble_preserves_base [some 1, some 2] exFileC7
    (by decide) (by decide)
  exact ⟨h.1, h.2.2⟩

/-! ## Frame effects of the lag-column generator -/

/-- A dataframe cell: integer-valued (dates as day numbers, ids), string-valued
(GEOIDs), or missing. -/
inductive Cell
  | intv (i : Int)
  | strv (s : String)
  | null
deriving Repr, DecidableEq

/-- A dataframe as an ordered list of named columns. -/
structure DFrame where
  cols : List (String × List Cell)
deriving Repr, DecidableEq

/-- The mutable survey-data object (`HRSInterviewData`): its dataframe plus
the metadata the linker reads. -/
structure HRSData where
  df : DFrame
  datecol : String
  idcol : String
  move : Bool
  geoidCol : String
deriving Repr, DecidableEq

def colValues (df : DFrame) (name : String) : List Cell :=
  ((df.cols.find? (fun c => decide (c.1 = name))).map Prod.snd).getD []

def hasCol (df : DFrame) (name : String) : Bool :=
  df.cols.any (fun c => decide (c.1 = name))

/-- `df[name] = vals`: overwrite the column when present, else append it. -/
def setCol (df : DFrame) (name : String) (vals : List Cell) : DFrame :=
  if hasCol df name then
    { cols := df.cols.map (fun c => if c.1 = name then (name, vals) else c) }
  else
    { cols := df.cols ++ [(name, vals)] }

/-- `df[datecol] − n days`, vectorized over a column of date cells. -/
def shiftDays (vals : List Cell) (n : Nat) : List Cell :=
  vals.map (fun c => match c with
    | Cell.intv d => Cell.intv (d - (n : Int))
    | _ => Cell.null)

/-- `f"{datecol}_{n}day_prior"`. -/
def dateColName (h : HRSData) (n : Nat) : String :=
  h.datecol ++ "_" ++ toString n ++ "day_prior"

/-- `f"{geoid_col}_{n}day_prior"` (for a date column name without internal
underscores, as in the callers, the `"_".join(split("_")[1:])` recovery of
the lag marker yields exactly `{n}day_prior`). -/
def geoidColName (h : HRSData) (n : Nat) : String :=
  h.geoidCol ++ "_" ++ toString n ++ "day_prior"

def cellToId : Cell → Option Int
  | Cell.intv i => some i
  | _ => none

/-- `HRSContextLinker._compute_geoid_for_date` (hrs.py lines 373-392): with a
residential history, look each (id, date) pair up in the move index;
otherwise take the static GEOID column `astype(str).str.zfill(11)` (pandas
renders a missing value as the string `"nan"` under `astype(str)`).  Reads
`hrs_data.df`, writes nothing. -/
def compute_geoid_for_date (index : List (Int × MoveInfo)) (h : HRSData)
    (dates : List Cell) : List Cell :=
  if h.move then
    ((colValues h.df h.idcol).zip dates).map (fun p =>
      match p.2 with
      | Cell.intv d =>
        match lookupRespondent index (cellToId p.1) d with
        | some g => Cell.strv g
        | none => Cell.null
      | _ => Cell.null)
  else
    (colValues h.df h.geoidCol).map (fun c => match c with
      | Cell.strv s => Cell.strv (normalizeGeoid s)
      | Cell.intv i => Cell.strv (normalizeGeoid (toString i))
      | Cell.null => Cell.strv (normalizeGeoid "nan"))

/-- `make_n_day_prior_cols` (hrs.py lines 293-303): computes the lagged date
column and assigns it into `hrs_data.df` in place; returns the column name
alongside the updated object. -/
def make_n_day_prior_cols (h : HRSData) (n : Nat) : String × HRSData :=
  (dateColName h n,
   { h with
       df := setCol h.df (dateColName h n) (shiftDays (colValues h.df h.datecol) n) })

/-- `prepare_lag_columns_batch` (hrs.py lines 308-368): copies `hrs_data.df`,
collects all new lag date and GEOID columns (all dates first, then all
GEOIDs — the dict's insertion order), and concatenates them onto the copy in
one step; `hrs_data` itself is returned untouched alongside the new frame.
(The callers pass pairwise distinct lags, mirroring the dict keying.) -/
def prepare_lag_columns_batch (index : List (Int × MoveInfo)) (h : HRSData)
    (ns : List Nat) : HRSData × DFrame :=
  (h,
   { cols := h.df.cols ++
       ns.map (fun n => (dateColName h n, shiftDays (colValues h.df h.datecol) n)) ++
       ns.map (fun n => (geoidColName h n,
         compute_geoid_for_date index h (shiftDays (colValues h.df h.datecol) n))) })

/-- Claim C10: `prepare_lag_columns_batch` never mutates the survey-data
object it is given — the returned object is the input, its dataframe intact —
and the lag date/GEOID columns live only in the newly returned frame (in
particular they are absent from the object's own frame whenever they were
not already there); by contrast `make_n_day_prior_cols` updates
`hrs_data.df` in place (its resulting frame differs whenever the lag column
is fresh). -/
theorem prepare_lag_columns_batch_no_mutation (index : List (Int × MoveInfo))
    (h : HRSData) (ns : List Nat) :
    (prepare_lag_columns_batch index h ns).1 = h ∧
    ((prepare_lag_columns_batch index h ns).2).cols.map Prod.fst =
      h.df.cols.map Prod.fst ++ ns.map (fun n => dateColName h n) ++
        ns.map (fun n => geoidColName h n) ∧
    (∀ n, hasCol h.df (dateColName h n) = false →
      hasCol ((prepare_lag_columns_batch index h ns).1).df (dateColName h n) = false) ∧
    (∀ n, hasCol h.df (dateColName h n) = false →
      (make_n_day_prior_cols h n).2.df ≠ h.df) := by
  refine ⟨rfl, ?_, fun n hf => hf, ?_⟩
  · rw [prepare_lag_columns_batch]
    simp only [List.map_append, List.map_map]
    rfl
  · intro n hf hEq
    have hset : (make_n_day_prior_cols h n).2.df.cols =
        h.df.cols ++ [(dateColName h n, shiftDays (colValues h.df h.datecol) n)] := by
      rw [make_n_day_prior_cols]
      dsimp only
      rw [setCol, if_neg (by rw [hf]; exact Bool.false_ne_true)]
    have hlen : (make_n_day_prior_cols h n).2.df.cols.length = h.df.cols.length := by
      rw [hEq]
    rw [hset] at hlen
    simp at hlen

def exHRS : HRSData :=
  { df := { cols := [("hhidpn", [Cell.intv 7]), ("bcdate", [Cell.intv 20])] },
    datecol := "bcdate", idcol := "hhidpn", move := true,
    geoidCol := "LINKCEN2010" }

/-- Claim C10 witness: on a concrete survey table, the batch generator leaves
the object untouched while the single-lag generator mutates its frame. -/
theorem prepare_lag_columns_batch_no_mutation_witness :
    (prepare_lag_columns_batch exIndex exHRS [1]).1 = exHRS ∧
      (make_n_day_prior_cols exHRS 1).2.df ≠ exHRS.df :=
  ⟨(prepare_lag_columns_batch_no_mutation exIndex exHRS [1]).1,
   (prepare_lag_columns_batch_no_mutation exIndex exHRS [1]).2.2.2 1 (by decide)⟩

end LinkData
